import Mathlib

/-!
Shallow embedding of `src/create_chunks.py` (Transcript Batch Builder).

The script iterates over the entries of the `tedx_audios` directory; for each
filename it computes `number = filename.split("_")[0]` and
`title = filename.split("_")[1][:-4]`, calls an external transcription model,
maps the result's segments to chunk records carrying `number`/`title` and the
segment's `start`/`end`/`text`, wraps them with the result's full `text`, and
writes the document to `jsons/<filename>.json`.

Strings are modelled as `List Char`; Python runtime errors (IndexError from
list indexing, transcription failures, write failures) are modelled with
`Except`; the external model call and the writability of the output path are
parameters of the batch loop; the output directory is modelled as an
association list from path to document with overwriting writes.
-/

set_option autoImplicit false

namespace CreateChunks

/-- Strings of the embedded program, as lists of characters. -/
abbrev Str := List Char

/-- Runtime errors the script can hit: `IndexError` from `split("_")[1]` on a
filename without an underscore, a failure raised inside `model.transcribe`,
and a failure while opening/writing the output file. -/
inductive PyError where
  | indexError
  | transcribeError
  | writeError
deriving DecidableEq

/-- Python `s.split(sep)` for a single-character separator: splits at every
occurrence of `sep`, keeping empty tokens, and returns `[s]` (a singleton,
never `[]`) when `sep` does not occur — in particular `"".split(sep) = [""]`. -/
def pySplit (sep : Char) : Str → List Str
  | [] => [[]]
  | c :: cs =>
    match pySplit sep cs with
    | [] => [[]]
    | t :: ts => if c = sep then [] :: t :: ts else (c :: t) :: ts

/-- Python slice `s[:-n]`: all but the last `n` characters, the empty string
when `n ≥ len(s)`; never an error. -/
def pySliceNeg (n : Nat) (s : Str) : Str := s.take (s.length - n)

/-- Python list indexing `l[i]`, raising `IndexError` when out of range. -/
def pyGet (l : List Str) (i : Nat) : Except PyError Str :=
  match l.get? i with
  | some x => .ok x
  | none => .error .indexError

/-- One utterance span of the transcription result (`segment["start"]`,
`segment["end"]`, `segment["text"]`). Times are modelled as rationals. -/
structure Segment where
  start : Rat
  «end» : Rat
  text : Str
deriving DecidableEq, Inhabited

/-- The transcription model's result: ordered segments plus full text. -/
structure Result where
  segments : List Segment
  text : Str
deriving DecidableEq, Inhabited

/-- One chunk record of the output document (line 21 of the source). -/
structure Chunk where
  number : Str
  title : Str
  start : Rat
  «end» : Rat
  text : Str
deriving DecidableEq, Inhabited

/-- The per-file output document `chunks_with_metadata` (line 23). -/
structure OutputDoc where
  chunks : List Chunk
  text : Str
deriving DecidableEq, Inhabited

/-- Lines 10–11 of the source:
`number = audio.split("_")[0]`, `title = audio.split("_")[1][:-4]`.
Either indexing may raise `IndexError`. -/
def parseNT (audio : Str) : Except PyError (Str × Str) :=
  match pyGet (pySplit '_' audio) 0 with
  | .error e => .error e
  | .ok number =>
    match pyGet (pySplit '_' audio) 1 with
    | .error e => .error e
    | .ok t => .ok (number, pySliceNeg 4 t)

/-- The chunk built from one segment (body of the loop at lines 19–21). -/
def mkChunk (number title : Str) (s : Segment) : Chunk :=
  { number := number, title := title, start := s.start, «end» := s.«end»,
    text := s.text }

/-- Lines 19–21: map the result's segments to chunk records in order. -/
def buildChunks (number title : Str) (segments : List Segment) : List Chunk :=
  segments.map (mkChunk number title)

/-- Line 23: wrap the chunks with the result's full text. -/
def buildDoc (number title : Str) (r : Result) : OutputDoc :=
  { chunks := buildChunks number title r.segments, text := r.text }

/-- The output directory as an association list from file path to the
document written there. -/
abbrev FS := List (Str × OutputDoc)

/-- Writing a file: overwrite the entry with this path if present, append a
new entry otherwise. -/
def fsWrite (fs : FS) (name : Str) (d : OutputDoc) : FS :=
  match fs with
  | [] => [(name, d)]
  | (n, d0) :: rest =>
    if n = name then (name, d) :: rest else (n, d0) :: fsWrite rest name d

/-- Reading the file at a path, if present. -/
def fsLookup (fs : FS) (name : Str) : Option OutputDoc :=
  match fs with
  | [] => none
  | (n, d) :: rest => if n = name then some d else fsLookup rest name

/-- How many files of the directory have the given path. -/
def countName (fs : FS) (name : Str) : Nat :=
  fs.countP (fun p => decide (p.1 = name))

/-- The paths of the directory are pairwise distinct (a real directory). -/
def keysNodup (fs : FS) : Prop := (fs.map Prod.fst).Nodup

/-- The hardcoded input directory prefix (`f"tedx_audios/{audio}"`). -/
def inputDir : Str := "tedx_audios/".data

/-- Line 25: the output path `f"jsons/{audio}.json"`. -/
def outName (audio : Str) : Str := "jsons/".data ++ audio ++ ".json".data

/-- The document the script computes for one filename, given the external
model `transcribe` (lines 10–23): parse the filename, transcribe the file at
its input path, build the output document. -/
def fileOutput (transcribe : Str → Except PyError Result) (audio : Str) :
    Except PyError OutputDoc :=
  match parseNT audio with
  | .error e => .error e
  | .ok (number, title) =>
    match transcribe (inputDir ++ audio) with
    | .error e => .error e
    | .ok r => .ok (buildDoc number title r)

/-- The output document for one filename given a fixed transcription result:
the per-file mapping of lines 10–23 with the model's answer supplied. -/
def docFor (audio : Str) (r : Result) : Except PyError OutputDoc :=
  match parseNT audio with
  | .error e => .error e
  | .ok (number, title) => .ok (buildDoc number title r)

/-- One iteration of the batch loop (lines 9–26): compute the document and
write it to the output path, or fail with the first error hit. `canWrite`
models whether opening/writing the output path succeeds. -/
def processOne (transcribe : Str → Except PyError Result)
    (canWrite : Str → Bool) (fs : FS) (audio : Str) : Except PyError FS :=
  match fileOutput transcribe audio with
  | .error e => .error e
  | .ok d =>
    if canWrite (outName audio) then .ok (fsWrite fs (outName audio) d)
    else .error .writeError

/-- The whole batch: process the directory listing in order; on the first
error stop, leaving the directory as already written (no rollback, no
skip-and-continue). Returns the final directory and the error, if any. -/
def runBatch (transcribe : Str → Except PyError Result)
    (canWrite : Str → Bool) : List Str → FS → FS × Option PyError
  | [], fs => (fs, none)
  | a :: rest, fs =>
    match processOne transcribe canWrite fs a with
    | .ok fs2 => runBatch transcribe canWrite rest fs2
    | .error e => (fs, some e)

/-- Concrete transcription result used by the spec's worked example. -/
def exResult : Result :=
  { segments := [{ start := 0, «end» := 5 / 2, text := "hello".data }],
    text := "hello".data }

/-- A transcription model returning `exResult` for every file. -/
def exTranscribe : Str → Except PyError Result := fun _ => .ok exResult

/-- A filesystem where every write succeeds. -/
def allowAll : Str → Bool := fun _ => true

/-- The document the script writes for `07_my-talk.mp3` under `exTranscribe`. -/
def exDoc : OutputDoc := buildDoc "07".data "my-talk".data exResult

/-- The output directory after the example batch run. -/
def exFS : FS := [(outName "07_my-talk.mp3".data, exDoc)]


theorem pySplit_cons (sep c : Char) (cs : Str) :
    pySplit sep (c :: cs) =
      match pySplit sep cs with
      | [] => [[]]
      | t :: ts => if c = sep then [] :: t :: ts else (c :: t) :: ts := rfl

theorem pySplit_ne_nil (sep : Char) : ∀ (s : Str), pySplit sep s ≠ []
  | [] => by simp [pySplit]
  | c :: cs => by
    rw [pySplit_cons]
    cases h : pySplit sep cs with
    | nil => simp
    | cons t ts => by_cases hc : c = sep <;> simp [hc]

theorem pySplit_no_sep {sep : Char} : ∀ {s : Str}, sep ∉ s → pySplit sep s = [s]
  | [], _ => rfl
  | c :: cs, h => by
    have hc : c ≠ sep := fun hc => h (hc ▸ List.mem_cons_self c cs)
    have ih : pySplit sep cs = [cs] :=
      pySplit_no_sep (fun hm => h (List.mem_cons_of_mem _ hm))
    rw [pySplit_cons, ih]
    simp [hc]

theorem pySplit_cons_sep (sep : Char) (rest : Str) :
    pySplit sep (sep :: rest) = [] :: pySplit sep rest := by
  rw [pySplit_cons]
  cases h : pySplit sep rest with
  | nil => exact absurd h (pySplit_ne_nil sep rest)
  | cons t ts => simp

theorem pySplit_append (sep : Char) : ∀ (t : Str), sep ∉ t → ∀ (rest : Str),
    pySplit sep (t ++ sep :: rest) = t :: pySplit sep rest
  | [], _, rest => by simpa using pySplit_cons_sep sep rest
  | c :: t, h, rest => by
    have hc : c ≠ sep := fun hc => h (hc ▸ List.mem_cons_self c t)
    have ih := pySplit_append sep t (fun hm => h (List.mem_cons_of_mem _ hm)) rest
    show pySplit sep (c :: (t ++ sep :: rest)) = (c :: t) :: pySplit sep rest
    rw [pySplit_cons, ih]
    simp [hc]

theorem fsLookup_fsWrite_self : ∀ (fs : FS) (name : Str) (d : OutputDoc),
    fsLookup (fsWrite fs name d) name = some d
  | [], name, d => by simp [fsWrite, fsLookup]
  | (n, d0) :: rest, name, d => by
    by_cases h : n = name
    · simp [fsWrite, h, fsLookup]
    · simp [fsWrite, h, fsLookup, fsLookup_fsWrite_self rest name d]

theorem fsLookup_fsWrite_ne : ∀ (fs : FS) (name name' : Str) (d : OutputDoc),
    name' ≠ name → fsLookup (fsWrite fs name d) name' = fsLookup fs name'
  | [], name, name', d, h => by simp [fsWrite, fsLookup, Ne.symm h]
  | (n, d0) :: rest, name, name', d, h => by
    by_cases hn : n = name
    · subst hn
      simp [fsWrite, fsLookup, Ne.symm h]
    · simp [fsWrite, hn, fsLookup, fsLookup_fsWrite_ne rest name name' d h]

theorem fsWrite_eq_of_lookup : ∀ (fs : FS) (name : Str) (d : OutputDoc),
    fsLookup fs name = some d → fsWrite fs name d = fs
  | [], _, _, h => by simp [fsLookup] at h
  | (n, d0) :: rest, name, d, h => by
    by_cases hn : n = name
    · subst hn
      simp [fsLookup] at h
      simp [fsWrite, h]
    · simp [fsLookup, hn] at h
      simp [fsWrite, hn, fsWrite_eq_of_lookup rest name d h]

theorem keysNodup_cons {n : Str} {d : OutputDoc} {rest : FS} :
    keysNodup ((n, d) :: rest) ↔ n ∉ rest.map Prod.fst ∧ keysNodup rest := by
  simp [keysNodup]

theorem mem_keys_fsWrite : ∀ (fs : FS) (name : Str) (d : OutputDoc) (x : Str),
    x ∈ (fsWrite fs name d).map Prod.fst → x = name ∨ x ∈ fs.map Prod.fst
  | [], name, d, x, h => by
    simp [fsWrite] at h
    exact Or.inl h
  | (n, d0) :: rest, name, d, x, h => by
    by_cases hn : n = name
    · simp [fsWrite, hn] at h
      rcases h with h | h
      · exact Or.inl h
      · exact Or.inr (List.mem_cons_of_mem n (by simpa using h))
    · simp [fsWrite, hn] at h
      rcases h with h | h
      · exact Or.inr (by simp [h])
      · rcases mem_keys_fsWrite rest name d x (by simpa using h) with h2 | h2
        · exact Or.inl h2
        · exact Or.inr (List.mem_cons_of_mem n (by simpa using h2))

theorem keysNodup_fsWrite : ∀ (fs : FS) (name : Str) (d : OutputDoc),
    keysNodup fs → keysNodup (fsWrite fs name d)
  | [], name, d, _ => by simp [keysNodup, fsWrite]
  | (n, d0) :: rest, name, d, h => by
    have hnot : n ∉ rest.map Prod.fst := (keysNodup_cons.1 h).1
    have hrest : keysNodup rest := (keysNodup_cons.1 h).2
    by_cases hn : n = name
    · subst hn
      have : fsWrite ((n, d0) :: rest) n d = (n, d) :: rest := by simp [fsWrite]
      rw [this]
      exact keysNodup_cons.2 ⟨hnot, hrest⟩
    · have hstep : fsWrite ((n, d0) :: rest) name d = (n, d0) :: fsWrite rest name d := by
        simp [fsWrite, hn]
      rw [hstep]
      refine keysNodup_cons.2 ⟨?_, keysNodup_fsWrite rest name d hrest⟩
      intro hmem
      rcases mem_keys_fsWrite rest name d n hmem with h2 | h2
      · exact hn h2
      · exact hnot h2

theorem countName_eq_zero : ∀ (fs : FS) (name : Str),
    name ∉ fs.map Prod.fst → countName fs name = 0
  | [], name, _ => rfl
  | (n, d0) :: rest, name, h => by
    have hn : n ≠ name := fun hh => h (by simp [hh])
    have hrest : name ∉ rest.map Prod.fst := fun hh => h (List.mem_cons_of_mem _ hh)
    have ih := countName_eq_zero rest name hrest
    simp [countName, List.countP_cons, hn]
    simpa [countName] using ih

theorem countName_eq_one : ∀ (fs : FS) (name : Str) (d : OutputDoc),
    keysNodup fs → fsLookup fs name = some d → countName fs name = 1
  | [], name, d, _, h => by simp [fsLookup] at h
  | (n, d0) :: rest, name, d, hnd, h => by
    have hnot : n ∉ rest.map Prod.fst := (keysNodup_cons.1 hnd).1
    have hrest : keysNodup rest := (keysNodup_cons.1 hnd).2
    by_cases hn : n = name
    · subst hn
      have : countName rest n = 0 := countName_eq_zero rest n hnot
      simp [countName, List.countP_cons]
      simpa [countName] using this
    · simp [fsLookup, hn] at h
      have := countName_eq_one rest name d hrest h
      simp [countName, List.countP_cons, hn]
      simpa [countName] using this

theorem processOne_ok_iff (T : Str → Except PyError Result) (W : Str → Bool)
    (fs : FS) (a : Str) (fs2 : FS) :
    processOne T W fs a = .ok fs2 ↔
      ∃ d, fileOutput T a = .ok d ∧ W (outName a) = true ∧
        fs2 = fsWrite fs (outName a) d := by
  unfold processOne
  cases h : fileOutput T a with
  | error e => simp
  | ok d =>
    cases hw : W (outName a) with
    | false => simp [hw]
    | true => simp [hw, eq_comm]

theorem runBatch_cons (T : Str → Except PyError Result) (W : Str → Bool)
    (a : Str) (rest : List Str) (fs : FS) :
    runBatch T W (a :: rest) fs =
      match processOne T W fs a with
      | .ok fs2 => runBatch T W rest fs2
      | .error e => (fs, some e) := rfl

theorem runBatch_stable (T : Str → Except PyError Result) (W : Str → Bool) :
    ∀ (rest : List Str) (g g' : FS) (name : Str) (d : OutputDoc),
      runBatch T W rest g = (g', none) →
      fsLookup g name = some d →
      (∀ b ∈ rest, outName b = name → fileOutput T b = .ok d) →
      fsLookup g' name = some d
  | [], g, g', name, d, hrun, hlook, _ => by
    simp [runBatch] at hrun
    rw [← hrun]
    exact hlook
  | b :: rest, g, g', name, d, hrun, hlook, hcond => by
    rw [runBatch_cons] at hrun
    cases hp : processOne T W g b with
    | error e => rw [hp] at hrun; simp at hrun
    | ok g2 =>
      rw [hp] at hrun
      obtain ⟨d2, hfo, hw, hg2⟩ := (processOne_ok_iff T W g b g2).1 hp
      have hlook2 : fsLookup g2 name = some d := by
        by_cases hb : outName b = name
        · have hd : fileOutput T b = .ok d :=
            hcond b (List.mem_cons_self b rest) hb
          have : d2 = d := by
            rw [hfo] at hd
            exact (Except.ok.injEq _ _ ▸ hd : d2 = d)
          subst this
          rw [hg2, ← hb]
          exact fsLookup_fsWrite_self g (outName b) d2
        · rw [hg2, fsLookup_fsWrite_ne g (outName b) name d2 (fun hh => hb hh.symm)]
          exact hlook
      exact runBatch_stable T W rest g2 g' name d hrun hlook2
        (fun b' hb' hn => hcond b' (List.mem_cons_of_mem b hb') hn)

theorem runBatch_nodup (T : Str → Except PyError Result) (W : Str → Bool) :
    ∀ (audios : List Str) (g g' : FS) (e : Option PyError),
      runBatch T W audios g = (g', e) → keysNodup g → keysNodup g'
  | [], g, g', e, hrun, hnd => by
    simp [runBatch] at hrun
    rw [← hrun.1]
    exact hnd
  | b :: rest, g, g', e, hrun, hnd => by
    rw [runBatch_cons] at hrun
    cases hp : processOne T W g b with
    | error e0 =>
      rw [hp] at hrun
      simp at hrun
      rw [← hrun.1]
      exact hnd
    | ok g2 =>
      rw [hp] at hrun
      obtain ⟨d2, hfo, hw, hg2⟩ := (processOne_ok_iff T W g b g2).1 hp
      have hnd2 : keysNodup g2 := hg2 ▸ keysNodup_fsWrite g (outName b) d2 hnd
      exact runBatch_nodup T W rest g2 g' e hrun hnd2

theorem outName_inj {a b : Str} (h : outName a = outName b) : a = b := by
  unfold outName at h
  rw [List.append_assoc, List.append_assoc] at h
  have h2 := List.append_cancel_left h
  exact List.append_cancel_right h2

theorem batch_lookup_each (T : Str → Except PyError Result) (W : Str → Bool) :
    ∀ (audios : List Str) (fs fs' : FS), keysNodup fs →
      runBatch T W audios fs = (fs', none) →
      ∀ a ∈ audios,
        ∃ d, fileOutput T a = .ok d ∧ fsLookup fs' (outName a) = some d ∧
          countName fs' (outName a) = 1
  | [], fs, fs', _, hrun, a, ha => absurd ha (List.not_mem_nil a)
  | b :: rest, fs, fs', hnd, hrun, a, ha => by
    rw [runBatch_cons] at hrun
    cases hp : processOne T W fs b with
    | error e => rw [hp] at hrun; simp at hrun
    | ok fs2 =>
      rw [hp] at hrun
      obtain ⟨d, hfo, hw, hfs2⟩ := (processOne_ok_iff T W fs b fs2).1 hp
      have hnd2 : keysNodup fs2 := hfs2 ▸ keysNodup_fsWrite fs (outName b) d hnd
      rcases List.mem_cons.1 ha with hab | harest
      · subst hab
        by_cases hmem : a ∈ rest
        · exact batch_lookup_each T W rest fs2 fs' hnd2 hrun a hmem
        · have hlook2 : fsLookup fs2 (outName a) = some d := by
            rw [hfs2]
            exact fsLookup_fsWrite_self fs (outName a) d
          have hcond : ∀ b' ∈ rest, outName b' = outName a → fileOutput T b' = .ok d := by
            intro b' hb' hn
            exact absurd ((outName_inj hn) ▸ hb') hmem
          have hlook : fsLookup fs' (outName a) = some d :=
            runBatch_stable T W rest fs2 fs' (outName a) d hrun hlook2 hcond
          have hnd' : keysNodup fs' := runBatch_nodup T W rest fs2 fs' none hrun hnd2
          exact ⟨d, hfo, hlook, countName_eq_one fs' (outName a) d hnd' hlook⟩
      · exact batch_lookup_each T W rest fs2 fs' hnd2 hrun a harest

theorem batch_rerun_eq (T : Str → Except PyError Result) (W : Str → Bool) :
    ∀ (audios : List Str) (fs fs' : FS),
      runBatch T W audios fs = (fs', none) → runBatch T W audios fs' = (fs', none)
  | [], fs, fs', _ => rfl
  | b :: rest, fs, fs', hrun => by
    rw [runBatch_cons] at hrun
    cases hp : processOne T W fs b with
    | error e => rw [hp] at hrun; simp at hrun
    | ok fs2 =>
      rw [hp] at hrun
      obtain ⟨d, hfo, hw, hfs2⟩ := (processOne_ok_iff T W fs b fs2).1 hp
      have hlook2 : fsLookup fs2 (outName b) = some d := by
        rw [hfs2]
        exact fsLookup_fsWrite_self fs (outName b) d
      have hcond : ∀ b' ∈ rest, outName b' = outName b → fileOutput T b' = .ok d := by
        intro b' hb' hn
        rw [outName_inj hn]
        exact hfo
      have hlook : fsLookup fs' (outName b) = some d :=
        runBatch_stable T W rest fs2 fs' (outName b) d hrun hlook2 hcond
      have hp' : processOne T W fs' b = .ok (fsWrite fs' (outName b) d) :=
        (processOne_ok_iff T W fs' b _).2 ⟨d, hfo, hw, rfl⟩
      have hfix : fsWrite fs' (outName b) d = fs' :=
        fsWrite_eq_of_lookup fs' (outName b) d hlook
      rw [runBatch_cons, hp', hfix]
      exact batch_rerun_eq T W rest fs2 fs' hrun

theorem batch_failure_split (T : Str → Except PyError Result) (W : Str → Bool) :
    ∀ (audios : List Str) (fs fs' : FS) (e : PyError),
      runBatch T W audios fs = (fs', some e) →
      ∃ pre a post, audios = pre ++ a :: post ∧
        runBatch T W pre fs = (fs', none) ∧ processOne T W fs' a = .error e
  | [], fs, fs', e, hrun => by simp [runBatch] at hrun
  | b :: rest, fs, fs', e, hrun => by
    rw [runBatch_cons] at hrun
    cases hp : processOne T W fs b with
    | error e0 =>
      rw [hp] at hrun
      simp at hrun
      obtain ⟨h1, h2⟩ := hrun
      subst h1
      subst h2
      exact ⟨[], b, rest, rfl, rfl, hp⟩
    | ok fs2 =>
      rw [hp] at hrun
      obtain ⟨pre, a, post, hsplit, hpre, hfail⟩ :=
        batch_failure_split T W rest fs2 fs' e hrun
      refine ⟨b :: pre, a, post, by simp [hsplit], ?_, hfail⟩
      rw [runBatch_cons, hp]
      exact hpre

/-- Claim C1 (counterexample): for the valid filename `07_my-talk.mp3` the
second underscore token is `my-talk.mp3` and the script's title is `my-talk`,
which is NOT that token with its last three characters removed (that would be
`my-talk.`): the source slices off four characters, not three. -/
theorem claim_C1_counterexample :
    pySplit '_' "07_my-talk.mp3".data = ["07".data, "my-talk.mp3".data] ∧
    parseNT "07_my-talk.mp3".data = .ok ("07".data, "my-talk".data) ∧
    "my-talk".data ≠ pySliceNeg 3 "my-talk.mp3".data :=
  ⟨rfl, rfl, by decide⟩

/-- Claim C1 (amended): for every valid filename `<idx>_<title>.<ext>` with a
three-character extension and no further underscore, parsing yields
`number = idx` and `title` equal to the second token with its last FOUR
characters (the dot and the extension) removed, i.e. exactly `<title>`. -/
theorem claim_C1_parse_valid (idx title ext : Str)
    (h1 : '_' ∉ idx) (h2 : '_' ∉ title) (h3 : '_' ∉ ext)
    (hlen : ext.length = 3) :
    parseNT (idx ++ '_' :: (title ++ '.' :: ext)) = .ok (idx, title) := by
  have hbody : '_' ∉ title ++ '.' :: ext := by
    intro hm
    rcases List.mem_append.1 hm with hm | hm
    · exact h2 hm
    · rcases List.mem_cons.1 hm with hm | hm
      · exact absurd hm (by decide)
      · exact h3 hm
  have hsplit : pySplit '_' (idx ++ '_' :: (title ++ '.' :: ext)) =
      [idx, title ++ '.' :: ext] := by
    rw [pySplit_append '_' idx h1, pySplit_no_sep hbody]
  have hslice : pySliceNeg 4 (title ++ '.' :: ext) = title := by
    have hl : (title ++ '.' :: ext).length - 4 = title.length := by
      simp [List.length_append, hlen]
    rw [pySliceNeg, hl]
    exact List.take_left title ('.' :: ext)
  simp [parseNT, hsplit, pyGet, hslice]

/-- Witness for `claim_C1_parse_valid` at `07_my-talk.mp3`. -/
theorem claim_C1_parse_valid_witness :
    parseNT ("07".data ++ '_' :: ("my-talk".data ++ '.' :: "mp3".data)) =
      .ok ("07".data, "my-talk".data) :=
  claim_C1_parse_valid "07".data "my-talk".data "mp3".data
    (by decide) (by decide) (by decide) (by decide)

/-- Claim C2: for every transcription result the output document has exactly
one chunk per segment, in the same order, each carrying the parsed number and
title and the segment's start/end/text unmodified, and the document carries
the result's full text. -/
theorem claim_C2_chunks (number title : Str) (r : Result) (i : Nat) :
    (buildDoc number title r).chunks.length = r.segments.length ∧
    (buildDoc number title r).text = r.text ∧
    (buildDoc number title r).chunks[i]? =
      (r.segments[i]?).map (fun s => { number := number, title := title, start := s.start, «end» := s.«end», text := s.text }) := by
  refine ⟨by simp [buildDoc, buildChunks], rfl, ?_⟩
  simp only [buildDoc, buildChunks, List.getElem?_map]
  rfl

/-- Claim C3: the spec's worked example — parsing `07_my-talk.mp3` and mapping
the result with one segment `(0.0, 2.5, "hello")` and text `"hello"` yields
exactly the expected output document. -/
theorem claim_C3_example :
    parseNT "07_my-talk.mp3".data = .ok ("07".data, "my-talk".data) ∧
    buildDoc "07".data "my-talk".data exResult =
      { chunks := [{ number := "07".data, title := "my-talk".data, start := 0, «end» := 5 / 2, text := "hello".data }],
        text := "hello".data } :=
  ⟨rfl, rfl⟩

/-- Claim C4: a filename without an underscore raises `IndexError` during
parsing (at `split("_")[1]`), and this aborts the whole batch at that item,
leaving the directory as it was. -/
theorem claim_C4_missing_delimiter (audio : Str) (h : '_' ∉ audio)
    (T : Str → Except PyError Result) (W : Str → Bool)
    (rest : List Str) (fs : FS) :
    parseNT audio = .error .indexError ∧
    runBatch T W (audio :: rest) fs = (fs, some .indexError) := by
  have hsplit : pySplit '_' audio = [audio] := pySplit_no_sep h
  have hp : parseNT audio = .error .indexError := by
    simp [parseNT, hsplit, pyGet]
  refine ⟨hp, ?_⟩
  have hfo : fileOutput T audio = .error .indexError := by
    simp [fileOutput, hp]
  rw [runBatch_cons]
  simp [processOne, hfo]

/-- Witness for `claim_C4_missing_delimiter` at filename `abc`. -/
theorem claim_C4_missing_delimiter_witness :
    parseNT "abc".data = .error .indexError ∧
    runBatch exTranscribe allowAll ("abc".data :: ["07_my-talk.mp3".data]) [] =
      ([], some .indexError) :=
  claim_C4_missing_delimiter "abc".data (by decide) exTranscribe allowAll
    ["07_my-talk.mp3".data] []

/-- Claim C5: when the batch completes without error, every listed file has
exactly one output entry, at path `jsons/<filename>.json`, holding exactly the
document computed for it — overwriting whatever was there before. -/
theorem claim_C5_one_output_per_file (T : Str → Except PyError Result)
    (W : Str → Bool) (audios : List Str) (fs fs' : FS)
    (hnd : keysNodup fs) (hrun : runBatch T W audios fs = (fs', none))
    (a : Str) (ha : a ∈ audios) :
    ∃ d, fileOutput T a = .ok d ∧ fsLookup fs' (outName a) = some d ∧
      countName fs' (outName a) = 1 :=
  batch_lookup_each T W audios fs fs' hnd hrun a ha

/-- Witness for `claim_C5_one_output_per_file` on a one-file batch. -/
theorem claim_C5_one_output_per_file_witness :
    ∃ d, fileOutput exTranscribe "07_my-talk.mp3".data = .ok d ∧
      fsLookup exFS (outName "07_my-talk.mp3".data) = some d ∧
      countName exFS (outName "07_my-talk.mp3".data) = 1 :=
  claim_C5_one_output_per_file exTranscribe allowAll ["07_my-talk.mp3".data]
    [] exFS (by simp [keysNodup]) (by rfl) "07_my-talk.mp3".data (by simp)

/-- Claim C6: re-running the batch on the final directory state, with the
same model output per file, reproduces that state exactly (per-file output is
deterministic and rewrites are overwrites). -/
theorem claim_C6_rerun_idempotent (T : Str → Except PyError Result)
    (W : Str → Bool) (audios : List Str) (fs fs' : FS)
    (hrun : runBatch T W audios fs = (fs', none)) :
    runBatch T W audios fs' = (fs', none) :=
  batch_rerun_eq T W audios fs fs' hrun

/-- Witness for `claim_C6_rerun_idempotent` on a one-file batch. -/
theorem claim_C6_rerun_idempotent_witness :
    runBatch exTranscribe allowAll ["07_my-talk.mp3".data] exFS = (exFS, none) :=
  claim_C6_rerun_idempotent exTranscribe allowAll ["07_my-talk.mp3".data] []
    exFS (by rfl)

/-- Claim C7: if the batch fails, the listing splits at a failing item: the
final directory is exactly the one produced by the successful prefix (files
already written remain, no rollback), and the failing item wrote nothing. -/
theorem claim_C7_failure_stops (T : Str → Except PyError Result)
    (W : Str → Bool) (audios : List Str) (fs fs' : FS) (e : PyError)
    (hrun : runBatch T W audios fs = (fs', some e)) :
    ∃ pre a post, audios = pre ++ a :: post ∧
      runBatch T W pre fs = (fs', none) ∧ processOne T W fs' a = .error e :=
  batch_failure_split T W audios fs fs' e hrun

/-- Witness for `claim_C7_failure_stops`: a good file then a bad one. -/
theorem claim_C7_failure_stops_witness :
    ∃ pre a post,
      ["07_my-talk.mp3".data, "abc".data] = pre ++ a :: post ∧
      runBatch exTranscribe allowAll pre ([] : FS) = (exFS, none) ∧
      processOne exTranscribe allowAll exFS a = .error .indexError :=
  claim_C7_failure_stops exTranscribe allowAll
    ["07_my-talk.mp3".data, "abc".data] [] exFS .indexError (by rfl)

/-- Claim C8: an empty directory listing produces no writes and no error. -/
theorem claim_C8_empty_dir (T : Str → Except PyError Result) (W : Str → Bool)
    (fs : FS) :
    runBatch T W [] fs = (fs, none) ∧ runBatch T W [] [] = ([], none) :=
  ⟨rfl, rfl⟩

/-- Claim C9: when the second underscore token has length at most four, the
slice `[:-4]` yields the empty title without raising, so parsing succeeds
with an empty title. -/
theorem claim_C9_short_token (audio t : Str)
    (h : (pySplit '_' audio).get? 1 = some t) (hlen : t.length ≤ 4) :
    ∃ n, parseNT audio = .ok (n, []) := by
  cases htoks : pySplit '_' audio with
  | nil => rw [htoks] at h; simp at h
  | cons t0 ts =>
    cases ts with
    | nil => rw [htoks] at h; simp at h
    | cons t1 ts' =>
      rw [htoks] at h
      simp at h
      subst h
      refine ⟨t0, ?_⟩
      have hsl : pySliceNeg 4 t1 = [] := by
        simp [pySliceNeg, Nat.sub_eq_zero_of_le hlen]
      simp [parseNT, htoks, pyGet, hsl]

/-- Witness for `claim_C9_short_token` at `a_b.gz` (second token `b.gz`). -/
theorem claim_C9_short_token_witness :
    ∃ n, parseNT "a_b.gz".data = .ok (n, []) :=
  claim_C9_short_token "a_b.gz".data "b.gz".data (by decide) (by decide)

/-- Claim C10: with two or more underscores in the filename, the number and
title come only from the first two tokens; everything after the second
underscore is discarded and reaches neither the title nor the document. -/
theorem claim_C10_extra_tokens (t0 t1 rest : Str)
    (h0 : '_' ∉ t0) (h1 : '_' ∉ t1) (r : Result) :
    parseNT (t0 ++ '_' :: (t1 ++ '_' :: rest)) = .ok (t0, pySliceNeg 4 t1) ∧
    docFor (t0 ++ '_' :: (t1 ++ '_' :: rest)) r =
      .ok (buildDoc t0 (pySliceNeg 4 t1) r) := by
  have hsplit : pySplit '_' (t0 ++ '_' :: (t1 ++ '_' :: rest)) =
      t0 :: t1 :: pySplit '_' rest := by
    rw [pySplit_append '_' t0 h0, pySplit_append '_' t1 h1]
  have hp : parseNT (t0 ++ '_' :: (t1 ++ '_' :: rest)) =
      .ok (t0, pySliceNeg 4 t1) := by
    simp [parseNT, hsplit, pyGet]
  exact ⟨hp, by simp [docFor, hp]⟩

/-- Witness for `claim_C10_extra_tokens` at `1_ab_junk.mp3`. -/
theorem claim_C10_extra_tokens_witness :
    parseNT ("1".data ++ '_' :: ("ab".data ++ '_' :: "junk.mp3".data)) =
      .ok ("1".data, pySliceNeg 4 "ab".data) ∧
    docFor ("1".data ++ '_' :: ("ab".data ++ '_' :: "junk.mp3".data)) exResult =
      .ok (buildDoc "1".data (pySliceNeg 4 "ab".data) exResult) :=
  claim_C10_extra_tokens "1".data "ab".data "junk.mp3".data
    (by decide) (by decide) exResult

end CreateChunks
